import Mathlib

/-
Verification of the linopy io module (src/linopy/io.py): a shallow embedding
of the numeric text codec, the masked line assembler, the lp-file writer, the
block-file writer and the netcdf snapshot codec, with theorems settling the
specified properties.

Conventions of the embedding:
* numpy / xarray arrays are Lean lists; `da.fillna(0)` becomes `Option.getD _ 0`;
  missing values are `none`.
* Python floats are modelled as rationals.  The `"%+f" % f` format is embedded
  exactly up to the tie-breaking of decimal rounding (the binary double's
  round-half-even at the 7th fractional digit is abstracted to round-half-up on
  the rational value; all claims are insensitive to this tie rule).
* file system effects are modelled by explicit association lists.
-/

namespace Linopy

/-- One decimal digit character. -/
def digitChar (d : ℕ) : Char := Char.ofNat (48 + d)

/-- Big-endian decimal digits of a natural number, driven by explicit fuel so
that the definition is structural and kernel-reducible.  For `fuel ≥ n` the
result is the usual decimal digit string of `n` (empty for `n = 0`). -/
def natDecimalGo : ℕ → ℕ → List Char
  | 0, _ => []
  | f + 1, n => if n = 0 then [] else natDecimalGo f (n / 10) ++ [digitChar (n % 10)]

/-- Decimal rendering of a natural number, as produced by C's `%d` for
non-negative values. -/
def natStr (n : ℕ) : String :=
  if n = 0 then "0" else String.mk (natDecimalGo (n + 1) n)

/-- Embedding of Python's `"%d" % i`: plain decimal, a leading `-` only for
negative values. -/
def intStr (i : ℤ) : String :=
  if i < 0 then "-" ++ natStr i.natAbs else natStr i.natAbs

/-- Value of `|q| * 10^6` rounded half-up, computed on numerator/denominator. -/
def ratScaled6 (q : ℚ) : ℕ := (2000000 * q.num.natAbs + q.den) / (2 * q.den)

/-- The six fractional digit characters of a scaled value `n < 10^6`. -/
def frac6 (n : ℕ) : List Char :=
  [digitChar (n / 100000 % 10), digitChar (n / 10000 % 10), digitChar (n / 1000 % 10),
   digitChar (n / 100 % 10), digitChar (n / 10 % 10), digitChar (n % 10)]

/-- Embedding of Python's `"%+f" % q`: explicit sign, decimal integer part and
exactly six fractional digits. -/
def pctPlusF (q : ℚ) : String :=
  (if q < 0 then "-" else "+") ++
    natStr (ratScaled6 q / 1000000) ++ "." ++ String.mk (frac6 (ratScaled6 q % 1000000))

/-- Embedding of `to_float_str` (io.py line 23): elementwise
`"%+f" % x` after `fillna(0)`. -/
def to_float_str (da : List (Option ℚ)) : List String :=
  da.map (fun x => pctPlusF (x.getD 0))

/-- Embedding of `to_int_str` (io.py line 28): elementwise `"%d" % x` after
`fillna(0)`. -/
def to_int_str (da : List (Option ℤ)) : List String :=
  da.map (fun x => intStr (x.getD 0))

/-- The rational 3/2, given as an explicit normal form so that it is
kernel-reducible. -/
def ratThreeHalves : ℚ := ⟨3, 2, by decide, by decide⟩

/-! ### The lp problem-file writer (io.py lines 46-142) -/

/-- One term of a linear expression: an optional coefficient (null marks an
absent term) and the referenced variable label (`-1` marks an absent term). -/
structure CTerm where
  coeff : Option ℚ
  var : ℤ
  deriving DecidableEq, Repr

/-- Validity mask of a term, io.py lines 52 and 69:
`coeffs.notnull() & (vars != -1)`. -/
def term_nonnan (t : CTerm) : Bool := t.coeff.isSome && (t.var != -1)

/-- The joined string of one term, io.py lines 53 and 70:
`to_float_str(coeffs) ++ " x" ++ to_int_str(vars) ++ "\n"`. -/
def term_str (t : CTerm) : String :=
  pctPlusF (t.coeff.getD 0) ++ " x" ++ intStr t.var ++ "\n"

/-- The masked string of one term: cells failing the mask are replaced by the
empty string (`.where(nonnans, "")`). -/
def term_str_masked (t : CTerm) : String :=
  if term_nonnan t then term_str t else ""

/-- Embedding of `objective_to_file` (io.py lines 46-55): the header followed
by the elementwise-written masked term lines. -/
def objective_to_file (obj : List CTerm) : String :=
  "min\nobj:\n" ++ String.join (obj.map term_str_masked)

/-- One constraint row: label (`-1` = missing), optional sign string, optional
right-hand side, and the list of its terms along the term dimension. -/
structure Constraint where
  label : ℤ
  sign : Option String
  rhs : Option ℚ
  terms : List CTerm
  deriving DecidableEq, Repr

/-- io.py line 71: the per-constraint reduction of the masked term lines over
the term dimension. -/
def lhs_str (c : Constraint) : String :=
  String.join (c.terms.map term_str_masked)

/-- io.py line 74: the constraint-level validity mask
`nonnans.any(term_names) & (labels != -1) & sign.notnull() & rhs.notnull()`. -/
def con_nonnan (c : Constraint) : Bool :=
  c.terms.any term_nonnan && (c.label != -1) && c.sign.isSome && c.rhs.isSome

/-- io.py lines 76-86: the joined constraint block
`"c" ++ label ++ ": \n" ++ lhs ++ sign ++ "\n" ++ rhs ++ "\n\n"`, masked to the
empty string where the constraint-level mask fails. -/
def constraint_str (c : Constraint) : String :=
  if con_nonnan c then
    "c" ++ intStr c.label ++ ": \n" ++ lhs_str c ++ c.sign.getD "" ++ "\n" ++
      pctPlusF (c.rhs.getD 0) ++ "\n\n"
  else ""

/-- Embedding of `constraints_to_file` (io.py lines 58-87). -/
def constraints_to_file (cs : List Constraint) : String :=
  "\n\ns.t.\n\n" ++ String.join (cs.map constraint_str)

/-- One variable row: label (`-1` = missing), optional bounds, and whether the
variable is binary (i.e. belongs to `m.binaries` rather than
`m._non_binary_variables`). -/
structure Variable where
  label : ℤ
  lower : Option ℚ
  upper : Option ℚ
  binary : Bool
  deriving DecidableEq, Repr

/-- io.py line 97: `lower.notnull() & upper.notnull() & (labels != -1)`. -/
def bounds_nonnan (v : Variable) : Bool :=
  v.lower.isSome && v.upper.isSome && (v.label != -1)

/-- io.py lines 98-105: the joined bounds line of one variable. -/
def bounds_line (v : Variable) : String :=
  pctPlusF (v.lower.getD 0) ++ " <= x" ++ intStr v.label ++ " <= " ++
    pctPlusF (v.upper.getD 0) ++ "\n"

/-- The masked per-variable cells of the bounds section, io.py lines 90-107:
the arrays are first restricted to `m._non_binary_variables`, then masked. -/
def bounds_lines (vs : List Variable) : List String :=
  (vs.filter (fun v => !v.binary)).map
    (fun v => if bounds_nonnan v then bounds_line v else "")

/-- Embedding of `bounds_to_file` (io.py lines 90-107). -/
def bounds_to_file (vs : List Variable) : String :=
  "\nbounds\n" ++ String.join (bounds_lines vs)

/-- The masked per-variable cells of the binaries section, io.py lines 110-117:
`m.binaries.labels` (the binary subset of the variables, an accessor of the
model class outside this module) masked by `labels != -1` and joined as
`"x" ++ label ++ "\n"`. -/
def binaries_lines (vs : List Variable) : List String :=
  (vs.filter (fun v => v.binary)).map
    (fun v => if v.label != -1 then "x" ++ intStr v.label ++ "\n" else "")

/-- Embedding of `binaries_to_file` (io.py lines 110-117). -/
def binaries_to_file (vs : List Variable) : String :=
  "\nbinary\n" ++ String.join (binaries_lines vs)

/-- The flattened model state consumed by the lp writer: the objective term
arrays, the constraint arrays, the variable arrays and the configured working
directory `m.solver_dir`. -/
structure LpModel where
  objective : List CTerm
  constraints : List Constraint
  variableRows : List Variable
  solver_dir : String
  deriving DecidableEq, Repr

/-- The full byte content written by `to_file` (io.py lines 130-138): the four
sections in program order followed by the terminal marker. -/
def lp_file_content (m : LpModel) : String :=
  objective_to_file m.objective ++ constraints_to_file m.constraints ++
    bounds_to_file m.variableRows ++ binaries_to_file m.variableRows ++ "end\n"

/-- A file system: an association list from paths to file contents. -/
abbrev FileSys := List (String × String)

/-- `os.path.exists` / reading a file. -/
def fs_lookup (fs : FileSys) (p : String) : Option String :=
  (fs.find? (fun kv => kv.1 == p)).map (fun kv => kv.2)

/-- `os.remove` (io.py line 128). -/
def os_remove (fs : FileSys) (p : String) : FileSys :=
  fs.filter (fun kv => kv.1 != p)

/-- `open(fn, mode="w")` followed by writing `s`: the path is created fresh
with exactly the written bytes. -/
def write_file (fs : FileSys) (p s : String) : FileSys :=
  (p, s) :: os_remove fs p

/-- Length of the longest path present in the file system. -/
def fs_max_len (fs : FileSys) : ℕ :=
  (fs.map (fun kv => kv.1.length)).foldr max 0

/-- Modelled from the spec: `NamedTemporaryFile(suffix=".lp",
prefix="linopy-problem-", dir=m.solver_dir).name` (io.py lines 123-125), a
library call outside this repository.  It allocates a path inside `dir`, with
the recognizable leading and trailing name parts, that does not collide with
any existing path; freshness is realized here by a middle part longer than
every existing path. -/
def namedTemporaryFile (fs : FileSys) (dir : String) : String :=
  dir ++ "/linopy-problem-" ++ String.mk (List.replicate (fs_max_len fs + 1) 'z') ++ ".lp"

/-- Embedding of `to_file` (io.py lines 120-142): resolve the destination,
delete a pre-existing file at that path, write the problem file fresh and
return the path actually written. -/
def to_file (fs : FileSys) (m : LpModel) (fn : Option String) : FileSys × String :=
  let p := match fn with
    | none => namedTemporaryFile fs m.solver_dir
    | some f => f
  let fs1 := if (fs_lookup fs p).isSome then os_remove fs p else fs
  (write_file fs1 p (lp_file_content m), p)

/-! ### The block file writer (io.py lines 145-224) -/

/-- Elementwise boolean `&` of two aligned mask arrays. -/
def elemAnd (a b : List Bool) : List Bool :=
  (a.zip b).map (fun p => p.1 && p.2)

/-- Elementwise boolean `~` of a mask array. -/
def elemNot (a : List Bool) : List Bool := a.map (fun b => !b)

/-- numpy boolean-mask indexing `arr[mask]`: the elements of `arr` at the
positions where the aligned mask is true, in encounter order. -/
def boolMask (arr : List α) (mask : List Bool) : List α :=
  (arr.zip mask).filterMap (fun p => if p.2 then some p.1 else none)

/-- One flattened active constraint term as seen by io.py lines 199-209: the
owning constraint's block, the referenced variable's block, whether the owning
constraint is an equality, and the three ravelled value columns
(label / coefficient / variable reference). -/
structure Term where
  conblock : ℕ
  varblock : ℕ
  is_eq : Bool
  label : ℤ
  coeff : ℚ
  var : ℤ
  deriving DecidableEq, Repr

/-- io.py line 199: `cons.ravel("blocks", "vars", filter_missings=True)`. -/
def conblocks (ts : List Term) : List ℕ := ts.map Term.conblock

/-- io.py line 200: `cons.ravel("var_blocks", "vars", filter_missings=True)`. -/
def varblocks (ts : List Term) : List ℕ := ts.map Term.varblock

/-- io.py lines 201-203: `cons.ravel(cons.sign == "==", "vars", ...)`. -/
def isEquality (ts : List Term) : List Bool := ts.map Term.is_eq

/-- io.py line 205: `is_varblock_0 = varblocks == 0`. -/
def is_varblock_0 (ts : List Term) : List Bool := (varblocks ts).map (fun b => b == 0)

/-- io.py line 206: `is_conblock_L = conblocks == N`. -/
def is_conblock_L (N : ℕ) (ts : List Term) : List Bool :=
  (conblocks ts).map (fun b => b == N)

/-- io.py line 211: `is_conblock_n = conblocks == n`. -/
def is_conblock_n (ts : List Term) (n : ℕ) : List Bool :=
  (conblocks ts).map (fun b => b == n)

/-- io.py line 212: `is_varblock_n = varblocks == n`. -/
def is_varblock_n (ts : List Term) (n : ℕ) : List Bool :=
  (varblocks ts).map (fun b => b == n)

/-- io.py lines 214-215: content of `block<n>/B_<suffix>`, the value column
`val` under the mask `(is_conblock_n & is_varblock_n) & is_equality`. -/
def fileB (N : ℕ) (ts : List Term) (n : ℕ) (val : Term → α) : List α :=
  boolMask (ts.map val)
    (elemAnd (elemAnd (is_conblock_n ts n) (is_varblock_n ts n)) (isEquality ts))

/-- io.py line 216: content of `block<n>/D_<suffix>`, mask
`(is_conblock_n & is_varblock_n) & ~is_equality`. -/
def fileD (N : ℕ) (ts : List Term) (n : ℕ) (val : Term → α) : List α :=
  boolMask (ts.map val)
    (elemAnd (elemAnd (is_conblock_n ts n) (is_varblock_n ts n)) (elemNot (isEquality ts)))

/-- io.py lines 218-219: content of `block<n>/A_<suffix>`, mask
`(is_conblock_n & is_varblock_0) & is_equality`. -/
def fileA (N : ℕ) (ts : List Term) (n : ℕ) (val : Term → α) : List α :=
  boolMask (ts.map val)
    (elemAnd (elemAnd (is_conblock_n ts n) (is_varblock_0 ts)) (isEquality ts))

/-- io.py line 220: content of `block<n>/C_<suffix>`, mask
`(is_conblock_n & is_varblock_0) & ~is_equality`. -/
def fileC (N : ℕ) (ts : List Term) (n : ℕ) (val : Term → α) : List α :=
  boolMask (ts.map val)
    (elemAnd (elemAnd (is_conblock_n ts n) (is_varblock_0 ts)) (elemNot (isEquality ts)))

/-- io.py lines 222-223: content of `block<n>/BL_<suffix>`, mask
`(is_conblock_L & is_varblock_n) & is_equality`. -/
def fileBL (N : ℕ) (ts : List Term) (n : ℕ) (val : Term → α) : List α :=
  boolMask (ts.map val)
    (elemAnd (elemAnd (is_conblock_L N ts) (is_varblock_n ts n)) (isEquality ts))

/-- io.py line 224: content of `block<n>/DL_<suffix>`, mask
`(is_conblock_L & is_varblock_n) & ~is_equality`. -/
def fileDL (N : ℕ) (ts : List Term) (n : ℕ) (val : Term → α) : List α :=
  boolMask (ts.map val)
    (elemAnd (elemAnd (is_conblock_L N ts) (is_varblock_n ts n)) (elemNot (isEquality ts)))

/-- Total number of rows written across the `{B,D}`, `{A,C}` and `{BL,DL}`
term files of all blocks `0..N` (one value column; all three columns have the
same row counts). -/
def totalTermRows (N : ℕ) (ts : List Term) : ℕ :=
  ((List.range (N + 1)).map (fun n =>
    (fileB N ts n Term.label).length + (fileD N ts n Term.label).length +
    (fileA N ts n Term.label).length + (fileC N ts n Term.label).length +
    (fileBL N ts n Term.label).length + (fileDL N ts n Term.label).length)).sum

/-! ### The objective scatter of the block file writer (io.py lines 171-175) -/

/-- Truncation toward zero of a rational, the effect of storing a float into
an integer-typed numpy array slot. -/
def ratTrunc (q : ℚ) : ℤ := Int.sign q.num * (q.num.natAbs / q.den : ℕ)

/-- io.py line 172: `np.zeros_like(blocks)` — a zero array with the shape
*and the integer element type* of the per-variable block array. -/
def zeros_like (blocks : List ℤ) : List ℤ := blocks.map (fun _ => 0)

/-- numpy fancy-index assignment `base[idx] = vals` into an integer-typed
array: the index/value pairs are processed left to right, a negative index `i`
addresses position `len + i`, an index outside `[-len, len)` (or a length
mismatch of the two arrays) is an error (`none`), and each float value is
truncated toward zero when stored. -/
def np_setitem : List ℤ → List ℤ → List ℚ → Option (List ℤ)
  | base, [], [] => some base
  | base, i :: is, v :: vs =>
      let j : ℤ := if i < 0 then i + base.length else i
      if 0 ≤ j ∧ j < (base.length : ℤ) then
        np_setitem (base.set j.toNat (ratTrunc v)) is vs
      else none
  | _, _, _ => none

/-- io.py lines 171-175: the per-block `c` files.  `blocks` is the ravelled
per-active-variable block array (integer typed, see the spec's data model),
`objVars`/`objCoeffs` the objective term arrays.  The dense coefficient array
is `np.zeros_like(blocks)` scattered by `coeffs[objective.vars] =
objective.coeffs`, then partitioned by the variable's block. -/
def objective_c_files (blocks : List ℤ) (objVars : List ℤ) (objCoeffs : List ℚ)
    (N : ℕ) : Option (List (List ℤ)) :=
  (np_setitem (zeros_like blocks) objVars objCoeffs).map (fun coeffs =>
    (List.range (N + 1)).map (fun n => boolMask coeffs (blocks.map (fun b => b == (n : ℤ)))))

/-! ### The netcdf snapshot codec (io.py lines 232-309)

Field and attribute names are modelled as character lists; the payload type of
the stored arrays is a parameter `α`, the payload type of the scalar metadata
a parameter `σ`.  The structure of the model object (its `dataset_attrs` /
`scalar_attrs` schemas and the datasets behind them, defined in the model
module outside this repository) is modelled from the spec: each section is a
list of named attributes, each attribute a dataset, i.e. a list of named
fields. -/

/-- A dataset: an ordered list of named data fields. -/
abbrev DSet (α : Type) := List (List Char × α)

/-- Modelled from the spec: the model state seen by the snapshot codec — the
`dataset_attrs` sections of the variables and the constraints containers, the
model-level datasets (`m.dataset_attrs + ["objective"]`) and the
`scalar_attrs` metadata. -/
structure NCModel (α σ : Type) where
  varSection : List (List Char × DSet α)
  conSection : List (List Char × DSet α)
  otherSection : List (List Char × DSet α)
  scalars : List (List Char × σ)
  deriving DecidableEq, Repr

/-- The section name part used by io.py line 252: `"variables_"`. -/
def preVars : List Char := "variables_".data

/-- The section name part used by io.py line 256: `"constraints_"`. -/
def preCons : List Char := "constraints_".data

/-- io.py lines 247-249: `ds.rename({v: prefix + attr + "-" + v for v in ds})`. -/
def get_and_rename_out (pre a : List Char) (ds : DSet α) : DSet α :=
  ds.map (fun fv => ((pre ++ a) ++ '-' :: fv.1, fv.2))

/-- The renamed fields contributed by one section to the merged container. -/
def saveSection (pre : List Char) (sec : List (List Char × DSet α)) : DSet α :=
  sec.flatMap (fun ads => get_and_rename_out pre ads.1 ads.2)

/-- Embedding of `to_netcdf` (io.py lines 232-266): the merged flat container
(`xr.merge(vars + cons + others)`) together with the scalar attribute map
(`.assign_attrs(scalars)`). -/
def to_netcdf (m : NCModel α σ) : DSet α × List (List Char × σ) :=
  (saveSection preVars m.varSection ++ saveSection preCons m.conSection ++
     saveSection [] m.otherSection, m.scalars)

/-- io.py lines 290-292: collect the keys starting with `prefix + attr + "-"`
and strip `len(prefix + attr) + 1` leading characters from each. -/
def get_and_rename_in (ds : DSet α) (pre a : List Char) : DSet α :=
  (ds.filter (fun kv => ((pre ++ a) ++ ['-']).isPrefixOf kv.1)).map
    (fun kv => (kv.1.drop ((pre ++ a).length + 1), kv.2))

/-- io.py lines 306-307: `setattr(m, k, all_ds.attrs.pop(k))` for each key of
the scalar schema; popping an absent key is a fatal error (`none`). -/
def readScalars (attrs : List (List Char × σ)) (schemaS : List (List Char)) :
    Option (List (List Char × σ)) :=
  schemaS.mapM (fun k => (attrs.find? (fun kv => kv.1 == k)).map (fun kv => (k, kv.2)))

/-- Embedding of `read_netcdf` (io.py lines 269-309): regroup the flat
container by the schema attribute lists of each section and restore the scalar
metadata. -/
def read_netcdf (ds : DSet α) (attrs : List (List Char × σ))
    (schemaV schemaC schemaO schemaS : List (List Char)) : Option (NCModel α σ) :=
  (readScalars attrs schemaS).map (fun sc =>
    { varSection := schemaV.map (fun a => (a, get_and_rename_in ds preVars a))
      conSection := schemaC.map (fun a => (a, get_and_rename_in ds preCons a))
      otherSection := schemaO.map (fun a => (a, get_and_rename_in ds [] a))
      scalars := sc })

/-! ### Specification-side vocabulary used by the theorems -/

/-- The numeric value of a big-endian decimal digit string. -/
def decimalVal (cs : List Char) : ℕ :=
  cs.foldl (fun a c => 10 * a + (c.toNat - 48)) 0

/-- The number of structural predicates of spec §4.4 a term satisfies:
diagonal (`b = vb`), first-stage coupling (`vb = 0`) and last-stage coupling
(`b = N`). -/
def termBuckets (N : ℕ) (t : Term) : ℕ :=
  (if t.conblock = t.varblock then 1 else 0) + (if t.varblock = 0 then 1 else 0) +
    (if t.conblock = N then 1 else 0)

/-! ## Lemmas about the numeric text codec -/

theorem digitChar_isDigit : ∀ d < 10, (digitChar d).isDigit = true := by decide

theorem digitChar_val : ∀ d < 10, (digitChar d).toNat - 48 = d := by decide

theorem natDecimalGo_all_digits (f : ℕ) : ∀ n, (natDecimalGo f n).all Char.isDigit = true := by
  induction f with
  | zero => intro n; rfl
  | succ f ih =>
      intro n
      by_cases h : n = 0
      · simp [natDecimalGo, h]
      · simp only [natDecimalGo, h, if_false, List.all_append, ih]
        simp [digitChar_isDigit (n % 10) (Nat.mod_lt n (by decide))]

theorem natStr_all_digits (n : ℕ) : (natStr n).data.all Char.isDigit = true := by
  by_cases h : n = 0
  · simp [natStr, h]
  · simpa [natStr, h] using natDecimalGo_all_digits (n + 1) n

theorem natStr_ne_nil (n : ℕ) : (natStr n).data ≠ [] := by
  by_cases h : n = 0
  · simp [natStr, h]
  · have h1 : 0 < n := Nat.pos_of_ne_zero h
    simp only [natStr, h, if_false]
    show natDecimalGo (n + 1) n ≠ []
    simp [natDecimalGo, h]

theorem decimalVal_go : ∀ f : ℕ, ∀ n ≤ f, decimalVal (natDecimalGo f n) = n := by
  intro f
  induction f with
  | zero =>
      intro n hn
      have : n = 0 := Nat.le_zero.mp hn
      subst this; rfl
  | succ f ih =>
      intro n hn
      by_cases h : n = 0
      · subst h; rfl
      · have hdiv : n / 10 ≤ f := by
          have h1 : n / 10 < n := Nat.div_lt_self (Nat.pos_of_ne_zero h) (by decide)
          omega
        simp only [natDecimalGo, h, if_false]
        show decimalVal (natDecimalGo f (n / 10) ++ [digitChar (n % 10)]) = n
        unfold decimalVal
        rw [List.foldl_append]
        have hv := ih (n / 10) hdiv
        unfold decimalVal at hv
        rw [hv]
        simp only [List.foldl_cons, List.foldl_nil]
        rw [digitChar_val (n % 10) (Nat.mod_lt n (by decide))]
        omega

theorem decimalVal_natStr (n : ℕ) : decimalVal (natStr n).data = n := by
  by_cases h : n = 0
  · subst h; rfl
  · simp only [natStr, h, if_false]
    exact decimalVal_go (n + 1) n (Nat.le_succ n)

theorem char_digit_ne_dot (c : Char) (h : c.isDigit = true) : (c != '.') = true := by
  have hne : c ≠ '.' := by
    intro he; subst he; exact absurd h (by decide)
  exact bne_iff_ne.mpr hne

theorem all_digits_ne_dot (l : List Char) (h : l.all Char.isDigit = true) :
    l.all (fun c => c != '.') = true := by
  simp only [List.all_eq_true] at h ⊢
  exact fun c hc => char_digit_ne_dot c (h c hc)

theorem dropWhile_append_all (p : Char → Bool) (l r : List Char) (h : l.all p = true) :
    (l ++ r).dropWhile p = r.dropWhile p := by
  induction l with
  | nil => rfl
  | cons a l ih =>
      simp only [List.all_cons, Bool.and_eq_true] at h
      simp [List.dropWhile, h.1, ih h.2]

theorem takeWhile_append_all (p : Char → Bool) (l r : List Char) (h : l.all p = true) :
    (l ++ r).takeWhile p = l ++ r.takeWhile p := by
  induction l with
  | nil => rfl
  | cons a l ih =>
      simp only [List.all_cons, Bool.and_eq_true] at h
      simp [List.takeWhile, h.1, ih h.2]

theorem frac6_all_digits (m : ℕ) : (frac6 m).all Char.isDigit = true := by
  simp only [frac6, List.all_cons, List.all_nil, Bool.and_eq_true]
  refine ⟨?_, ?_, ?_, ?_, ?_, ?_, trivial⟩ <;>
    exact digitChar_isDigit _ (Nat.mod_lt _ (by decide))

theorem pctPlusF_data (q : ℚ) :
    (pctPlusF q).data = (if q < 0 then '-' else '+') ::
      ((natStr (ratScaled6 q / 1000000)).data ++ '.' :: frac6 (ratScaled6 q % 1000000)) := by
  by_cases h : q < 0 <;>
    simp [pctPlusF, h, String.data_append]

/-! ## Claim theorems about the numeric text codec -/

/-- C6: the elementwise codecs are shape- and order-preserving and treat
null/missing as zero; the float codec yields a signed fixed-point token with
an explicit sign, a nonempty decimal integer part and exactly six fractional
digits (`"+0.000000"` for null); the int codec yields `"0"` for null and
otherwise the plain decimal string of the value, unsigned for non-negative
values and with a leading `-` for negative ones. -/
theorem to_float_str_to_int_str_spec (dq : List (Option ℚ)) (dz : List (Option ℤ))
    (i : ℕ) (q : ℚ) (z : ℤ) :
    (to_float_str dq).length = dq.length
    ∧ (to_float_str dq)[i]? = dq[i]?.map (fun x => pctPlusF (x.getD 0))
    ∧ (to_int_str dz).length = dz.length
    ∧ (to_int_str dz)[i]? = dz[i]?.map (fun x => intStr (x.getD 0))
    ∧ pctPlusF ((none : Option ℚ).getD 0) = "+0.000000"
    ∧ (pctPlusF q).data.head? = some (if q < 0 then '-' else '+')
    ∧ ((pctPlusF q).data.tail.takeWhile (fun c => c != '.')).all Char.isDigit = true
    ∧ ((pctPlusF q).data.tail.takeWhile (fun c => c != '.')) ≠ []
    ∧ ((pctPlusF q).data.tail.dropWhile (fun c => c != '.')).head? = some '.'
    ∧ ((pctPlusF q).data.tail.dropWhile (fun c => c != '.')).tail.length = 6
    ∧ ((pctPlusF q).data.tail.dropWhile (fun c => c != '.')).tail.all Char.isDigit = true
    ∧ intStr ((none : Option ℤ).getD 0) = "0"
    ∧ (0 ≤ z → (intStr z).data.all Char.isDigit = true ∧ decimalVal (intStr z).data = z.toNat)
    ∧ (z < 0 → (intStr z).data.head? = some '-'
        ∧ decimalVal (intStr z).data.tail = z.natAbs) := by
  have hdigits : ((natStr (ratScaled6 q / 1000000)).data).all (fun c => c != '.') = true :=
    all_digits_ne_dot _ (natStr_all_digits _)
  have htail : (pctPlusF q).data.tail =
      (natStr (ratScaled6 q / 1000000)).data ++ '.' :: frac6 (ratScaled6 q % 1000000) := by
    rw [pctPlusF_data]; rfl
  refine ⟨by simp [to_float_str], by simp [to_float_str], by simp [to_int_str],
    by simp [to_int_str], by decide, ?_, ?_, ?_, ?_, ?_, ?_, by decide, ?_, ?_⟩
  · rw [pctPlusF_data]; rfl
  · rw [htail, takeWhile_append_all _ _ _ hdigits]
    simpa using natStr_all_digits (ratScaled6 q / 1000000)
  · rw [htail, takeWhile_append_all _ _ _ hdigits]
    simpa using natStr_ne_nil (ratScaled6 q / 1000000)
  · rw [htail, dropWhile_append_all _ _ _ hdigits]
    simp [List.dropWhile]
  · rw [htail, dropWhile_append_all _ _ _ hdigits]
    simp [List.dropWhile, frac6]
  · rw [htail, dropWhile_append_all _ _ _ hdigits]
    simpa [List.dropWhile] using frac6_all_digits (ratScaled6 q % 1000000)
  · intro hz
    have h1 : ¬ z < 0 := not_lt.mpr hz
    have h2 : z.natAbs = z.toNat := by omega
    simp only [intStr, h1, if_false]
    exact ⟨natStr_all_digits _, by rw [decimalVal_natStr, h2]⟩
  · intro hz
    simp only [intStr, hz, if_true]
    constructor
    · simp [String.data_append]
    · simp only [String.data_append]
      show decimalVal (('-' :: (natStr z.natAbs).data) : List Char).tail = z.natAbs
      simpa using decimalVal_natStr z.natAbs

/-- C6 witness: the codec theorem instantiated at concrete inputs, with the
conditional conjuncts discharged at a non-negative and a negative value. -/
theorem to_float_str_to_int_str_spec_witness :
    (to_float_str [none, some ratThreeHalves] = ["+0.000000", "+1.500000"])
    ∧ (to_int_str [none, some 7, some (-4)] = ["0", "7", "-4"])
    ∧ ((intStr 7).data.all Char.isDigit = true ∧ decimalVal (intStr 7).data = (7 : ℤ).toNat)
    ∧ ((intStr (-4)).data.head? = some '-'
        ∧ decimalVal (intStr (-4)).data.tail = (-4 : ℤ).natAbs) := by
  refine ⟨by decide, by decide, ?_, ?_⟩
  · exact (to_float_str_to_int_str_spec [] [] 0 0 7).2.2.2.2.2.2.2.2.2.2.2.2.1 (by decide)
  · exact (to_float_str_to_int_str_spec [] [] 0 0 (-4)).2.2.2.2.2.2.2.2.2.2.2.2.2 (by decide)

/-! ## Claim theorems about the lp problem file -/

/-- C5: for the model with one unbounded free variable `x0`, one constraint
`x0 >= 0` and no objective terms, the constraints section of the written
problem file is the header followed by exactly the one line block
`"c0: \n+1.000000 x0\n>=\n+0.000000\n\n"`; the second conjunct places the
section inside the full written file. -/
theorem constraints_to_file_single_geq_block :
    constraints_to_file [⟨0, some ">=", some 0, [⟨some 1, 0⟩]⟩] =
      "\n\ns.t.\n\n" ++ "c0: \n+1.000000 x0\n>=\n+0.000000\n\n"
    ∧ lp_file_content
        ⟨[], [⟨0, some ">=", some 0, [⟨some 1, 0⟩]⟩], [⟨0, none, none, false⟩], "/tmp"⟩ =
      "min\nobj:\n" ++ ("\n\ns.t.\n\n" ++ "c0: \n+1.000000 x0\n>=\n+0.000000\n\n") ++
        "\nbounds\n" ++ "\nbinary\n" ++ "end\n" := by
  constructor <;> decide

theorem con_nonnan_false_iff (c : Constraint) :
    con_nonnan c = false ↔
      ((∀ t ∈ c.terms, t.coeff = none ∨ t.var = -1) ∨ c.label = -1 ∨ c.sign = none ∨
        c.rhs = none) := by
  rw [← Bool.not_eq_true]
  simp only [con_nonnan, Bool.and_eq_true, List.any_eq_true, term_nonnan, bne_iff_ne, ne_eq,
    Option.isSome_iff_ne_none]
  constructor
  · intro h
    by_cases h1 : ∀ t ∈ c.terms, t.coeff = none ∨ t.var = -1
    · exact Or.inl h1
    · push_neg at h1
      obtain ⟨t, ht, htc, htv⟩ := h1
      by_cases h2 : c.label = -1
      · exact Or.inr (Or.inl h2)
      by_cases h3 : c.sign = none
      · exact Or.inr (Or.inr (Or.inl h3))
      by_cases h4 : c.rhs = none
      · exact Or.inr (Or.inr (Or.inr h4))
      exact absurd ⟨⟨⟨⟨t, ht, htc, htv⟩, h2⟩, h3⟩, h4⟩ h
  · rintro (h | h | h | h) ⟨⟨⟨⟨t, ht, htc, htv⟩, hlab⟩, hsig⟩, hrhs⟩
    · rcases h t ht with hc | hv
      · exact htc hc
      · exact htv hv
    · exact hlab h
    · exact hsig h
    · exact hrhs h

/-- C7: a constraint contributes zero bytes to the constraints section iff it
has no valid term (every term has a null coefficient or variable reference
`-1`), or its label is `-1`, or its sign is null, or its right-hand side is
null; otherwise its full line block is emitted (in particular the emitted
block is never the empty string). -/
theorem constraint_block_suppression (c : Constraint) :
    constraint_str c = "" ↔
      ((∀ t ∈ c.terms, t.coeff = none ∨ t.var = -1) ∨ c.label = -1 ∨ c.sign = none ∨
        c.rhs = none) := by
  rw [← con_nonnan_false_iff]
  cases hb : con_nonnan c
  · simp [constraint_str, hb]
  · simp only [constraint_str, hb, if_true]
    constructor
    · intro he
      have hlen := congrArg String.length he
      simp only [String.length_append] at hlen
      have h1 : String.length "c" = 1 := rfl
      have h2 : String.length "" = 0 := rfl
      omega
    · intro h
      exact absurd h (by simp)

/-- C7 witness: a constraint with a missing sign is suppressed, a fully valid
constraint is not. -/
theorem constraint_block_suppression_witness :
    constraint_str ⟨0, none, some 0, [⟨some 1, 0⟩]⟩ = ""
    ∧ ¬ constraint_str ⟨0, some ">=", some 0, [⟨some 1, 0⟩]⟩ = "" := by
  constructor
  · exact (constraint_block_suppression _).mpr (Or.inr (Or.inr (Or.inl rfl)))
  · intro h
    have := (constraint_block_suppression ⟨0, some ">=", some 0, [⟨some 1, 0⟩]⟩).mp h
    revert this
    decide

theorem bounds_line_ne_empty (v : Variable) : bounds_line v ≠ "" := by
  intro h
  have hlen := congrArg String.length h
  simp only [bounds_line, String.length_append] at hlen
  have h1 : String.length " <= x" = 5 := rfl
  have h2 : String.length "" = 0 := rfl
  omega

theorem binary_line_ne_empty (v : Variable) : ("x" ++ intStr v.label ++ "\n") ≠ "" := by
  intro h
  have hlen := congrArg String.length h
  simp only [String.length_append] at hlen
  have h1 : String.length "x" = 1 := rfl
  have h2 : String.length "" = 0 := rfl
  omega

/-- C8: the nonempty cells of the bounds section are exactly one line per
non-binary, active, doubly-bounded variable, and the nonempty cells of the
binaries section are exactly one `x<label>` line per active binary variable;
in particular a binary variable never reaches the bounds section and a
non-binary variable never reaches the binaries section. -/
theorem bounds_and_binaries_partition (vs : List Variable) :
    (bounds_lines vs).filter (fun s => s != "") =
      (vs.filter (fun v =>
        !v.binary && (v.label != -1) && v.lower.isSome && v.upper.isSome)).map bounds_line
    ∧ (binaries_lines vs).filter (fun s => s != "") =
      (vs.filter (fun v => v.binary && (v.label != -1))).map
        (fun v => "x" ++ intStr v.label ++ "\n") := by
  constructor
  · rw [bounds_lines, List.filter_map, List.filter_filter]
    simp only [Function.comp]
    have hpred : ∀ v ∈ vs,
        ((if bounds_nonnan v = true then bounds_line v else "") != "" && !v.binary) =
          (!v.binary && (v.label != -1) && v.lower.isSome && v.upper.isSome) := by
      intro v _
      have hne : (bounds_line v != "") = true := bne_iff_ne.mpr (bounds_line_ne_empty v)
      cases hb : v.binary <;> cases hl : v.lower.isSome <;> cases hu : v.upper.isSome <;>
        cases hlab : (v.label != -1) <;> simp [bounds_nonnan, hb, hl, hu, hlab, hne]
    rw [List.filter_congr hpred]
    apply List.map_congr_left
    intro v hv
    rw [List.mem_filter] at hv
    have hm : bounds_nonnan v = true := by
      revert hv
      cases hb : v.binary <;> cases hl : v.lower.isSome <;> cases hu : v.upper.isSome <;>
        cases hlab : (v.label != -1) <;> simp [bounds_nonnan, hb, hl, hu, hlab]
    rw [if_pos hm]
  · rw [binaries_lines, List.filter_map, List.filter_filter]
    simp only [Function.comp]
    have hpred : ∀ v ∈ vs,
        ((if (v.label != -1) = true then "x" ++ intStr v.label ++ "\n" else "") != ""
            && v.binary) =
          (v.binary && (v.label != -1)) := by
      intro v _
      have hne : (("x" ++ intStr v.label ++ "\n") != "") = true :=
        bne_iff_ne.mpr (binary_line_ne_empty v)
      cases hb : v.binary <;> cases hlab : (v.label != -1) <;> simp [hb, hlab, hne]
    rw [List.filter_congr hpred]
    apply List.map_congr_left
    intro v hv
    rw [List.mem_filter] at hv
    have hm : (v.label != -1) = true := by
      revert hv
      cases hb : v.binary <;> cases hlab : (v.label != -1) <;> simp [hb, hlab]
    rw [if_pos hm]

/-! ## Lemmas about the block-file term routing -/

theorem boolMask_map_map {α : Type} (val : Term → α) (p : Term → Bool) (ts : List Term) :
    boolMask (ts.map val) (ts.map p) = (ts.filter p).map val := by
  induction ts with
  | nil => rfl
  | cons t ts ih =>
      have ih2 : ((ts.map val).zip (ts.map p)).filterMap
          (fun q => if q.2 = true then some q.1 else none) = (ts.filter p).map val := ih
      cases hp : p t <;>
        simp [boolMask, List.zip_cons_cons, List.filterMap_cons, hp, List.filter_cons, ih2]

theorem elemAnd_map_map (p q : Term → Bool) (ts : List Term) :
    elemAnd (ts.map p) (ts.map q) = ts.map (fun t => p t && q t) := by
  simp [elemAnd, List.zip_map', List.map_map]

theorem elemNot_map (p : Term → Bool) (ts : List Term) :
    elemNot (ts.map p) = ts.map (fun t => !p t) := by
  simp [elemNot, List.map_map]

theorem is_conblock_n_eq (ts : List Term) (n : ℕ) :
    is_conblock_n ts n = ts.map (fun t => t.conblock == n) := by
  simp [is_conblock_n, conblocks, List.map_map]

theorem is_varblock_n_eq (ts : List Term) (n : ℕ) :
    is_varblock_n ts n = ts.map (fun t => t.varblock == n) := by
  simp [is_varblock_n, varblocks, List.map_map]

theorem is_varblock_0_eq (ts : List Term) :
    is_varblock_0 ts = ts.map (fun t => t.varblock == 0) := by
  simp [is_varblock_0, varblocks, List.map_map]

theorem is_conblock_L_eq (N : ℕ) (ts : List Term) :
    is_conblock_L N ts = ts.map (fun t => t.conblock == N) := by
  simp [is_conblock_L, conblocks, List.map_map]

theorem fileB_eq_filter {α : Type} (N : ℕ) (ts : List Term) (n : ℕ) (val : Term → α) :
    fileB N ts n val =
      (ts.filter (fun t => t.conblock == n && t.varblock == n && t.is_eq)).map val := by
  rw [fileB, is_conblock_n_eq, is_varblock_n_eq, isEquality, elemAnd_map_map, elemAnd_map_map,
    boolMask_map_map]

theorem fileD_eq_filter {α : Type} (N : ℕ) (ts : List Term) (n : ℕ) (val : Term → α) :
    fileD N ts n val =
      (ts.filter (fun t => t.conblock == n && t.varblock == n && !t.is_eq)).map val := by
  rw [fileD, is_conblock_n_eq, is_varblock_n_eq, isEquality, elemNot_map, elemAnd_map_map,
    elemAnd_map_map, boolMask_map_map]

theorem fileA_eq_filter {α : Type} (N : ℕ) (ts : List Term) (n : ℕ) (val : Term → α) :
    fileA N ts n val =
      (ts.filter (fun t => t.conblock == n && t.varblock == 0 && t.is_eq)).map val := by
  rw [fileA, is_conblock_n_eq, is_varblock_0_eq, isEquality, elemAnd_map_map, elemAnd_map_map,
    boolMask_map_map]

theorem fileC_eq_filter {α : Type} (N : ℕ) (ts : List Term) (n : ℕ) (val : Term → α) :
    fileC N ts n val =
      (ts.filter (fun t => t.conblock == n && t.varblock == 0 && !t.is_eq)).map val := by
  rw [fileC, is_conblock_n_eq, is_varblock_0_eq, isEquality, elemNot_map, elemAnd_map_map,
    elemAnd_map_map, boolMask_map_map]

theorem fileBL_eq_filter {α : Type} (N : ℕ) (ts : List Term) (n : ℕ) (val : Term → α) :
    fileBL N ts n val =
      (ts.filter (fun t => t.conblock == N && t.varblock == n && t.is_eq)).map val := by
  rw [fileBL, is_conblock_L_eq, is_varblock_n_eq, isEquality, elemAnd_map_map, elemAnd_map_map,
    boolMask_map_map]

theorem fileDL_eq_filter {α : Type} (N : ℕ) (ts : List Term) (n : ℕ) (val : Term → α) :
    fileDL N ts n val =
      (ts.filter (fun t => t.conblock == N && t.varblock == n && !t.is_eq)).map val := by
  rw [fileDL, is_conblock_L_eq, is_varblock_n_eq, isEquality, elemNot_map, elemAnd_map_map,
    elemAnd_map_map, boolMask_map_map]

/-- C1: for every block `n` in `0..N`, the writer routes each active term with
constraint block `b` and referenced-variable block `vb` into block `n`'s term
files exactly by the structural predicates crossed with equality: `B`/`D`
hold the terms with `b = n ∧ vb = n` (equality resp. inequality), `A`/`C`
those with `b = n ∧ vb = 0`, `BL`/`DL` those with `b = N ∧ vb = n`, each file
listing the chosen value column (label, coefficient or variable reference for
the `row`/`data`/`col` suffix) in encounter order. -/
theorem to_block_files_term_routing {α : Type} (val : Term → α) (N : ℕ) (ts : List Term)
    (n : ℕ) (hn : n ≤ N) :
    fileB N ts n val =
      (ts.filter (fun t => t.conblock == n && t.varblock == n && t.is_eq)).map val
    ∧ fileD N ts n val =
      (ts.filter (fun t => t.conblock == n && t.varblock == n && !t.is_eq)).map val
    ∧ fileA N ts n val =
      (ts.filter (fun t => t.conblock == n && t.varblock == 0 && t.is_eq)).map val
    ∧ fileC N ts n val =
      (ts.filter (fun t => t.conblock == n && t.varblock == 0 && !t.is_eq)).map val
    ∧ fileBL N ts n val =
      (ts.filter (fun t => t.conblock == N && t.varblock == n && t.is_eq)).map val
    ∧ fileDL N ts n val =
      (ts.filter (fun t => t.conblock == N && t.varblock == n && !t.is_eq)).map val :=
  ⟨fileB_eq_filter N ts n val, fileD_eq_filter N ts n val, fileA_eq_filter N ts n val,
    fileC_eq_filter N ts n val, fileBL_eq_filter N ts n val, fileDL_eq_filter N ts n val⟩

/-- C1 witness: the routing theorem applied to two concrete terms at block
`n = 1` of `N = 1`: only the diagonal equality term reaches `B_row`. -/
theorem to_block_files_term_routing_witness :
    fileB 1 [⟨1, 1, true, 5, 1, 7⟩, ⟨1, 0, false, 6, 1, 8⟩] 1 Term.label = [5] :=
  (to_block_files_term_routing Term.label 1 [⟨1, 1, true, 5, 1, 7⟩, ⟨1, 0, false, 6, 1, 8⟩]
    1 (by decide)).1.trans (by decide)


/-! ## Lemmas about the total term-row count -/

theorem sum_map_add_distrib {β : Type} (l : List β) (f g : β → ℕ) :
    (l.map (fun n => f n + g n)).sum = (l.map f).sum + (l.map g).sum := by
  induction l with
  | nil => rfl
  | cons a l ih =>
      simp only [List.map_cons, List.sum_cons, ih]
      omega

theorem spike_sum (k b c : ℕ) (hb : b < k) :
    ((List.range k).map (fun n => if b = n then c else 0)).sum = c := by
  induction k with
  | zero => omega
  | succ k ih =>
      rw [List.range_succ, List.map_append, List.sum_append]
      by_cases hbk : b = k
      · subst hbk
        have hz : ((List.range b).map (fun n => if b = n then c else 0)).sum = 0 := by
          apply List.sum_eq_zero
          intro x hx
          rw [List.mem_map] at hx
          obtain ⟨n, hn, hxe⟩ := hx
          rw [List.mem_range] at hn
          have hbn : b ≠ n := by omega
          rw [if_neg hbn] at hxe
          exact hxe.symm
        simp [hz]
      · have hb2 : b < k := by omega
        simp [ih hb2, hbk]

theorem three_spikes (N b vb : ℕ) (hb : b ≤ N) (hv : vb ≤ N) :
    ((List.range (N + 1)).map (fun n =>
      (if (b == n && vb == n) = true then 1 else 0) +
      (if (b == n && vb == 0) = true then 1 else 0) +
      (if (b == N && vb == n) = true then 1 else 0))).sum =
    (if b = vb then 1 else 0) + (if vb = 0 then 1 else 0) + (if b = N then 1 else 0) := by
  have hpt1 : ∀ n ∈ List.range (N + 1), (if (b == n && vb == n) = true then (1:ℕ) else 0) =
      (if b = n then (if vb = b then 1 else 0) else 0) := by
    intro n _
    by_cases h1 : b = n <;> by_cases h2 : vb = b <;> simp [h1, h2]
  have hpt2 : ∀ n ∈ List.range (N + 1), (if (b == n && vb == 0) = true then (1:ℕ) else 0) =
      (if b = n then (if vb = 0 then 1 else 0) else 0) := by
    intro n _
    by_cases h1 : b = n <;> by_cases h2 : vb = 0 <;> simp [h1, h2]
  have hpt3 : ∀ n ∈ List.range (N + 1), (if (b == N && vb == n) = true then (1:ℕ) else 0) =
      (if vb = n then (if b = N then 1 else 0) else 0) := by
    intro n _
    by_cases h1 : vb = n <;> by_cases h2 : b = N <;> simp [h1, h2]
  have hsplit : ∀ n ∈ List.range (N + 1),
      ((if (b == n && vb == n) = true then (1:ℕ) else 0) +
       (if (b == n && vb == 0) = true then 1 else 0) +
       (if (b == N && vb == n) = true then 1 else 0)) =
      ((if b = n then (if vb = b then 1 else 0) else 0) +
       (if b = n then (if vb = 0 then 1 else 0) else 0) +
       (if vb = n then (if b = N then 1 else 0) else 0)) := by
    intro n hn
    rw [hpt1 n hn, hpt2 n hn, hpt3 n hn]
  rw [List.map_congr_left hsplit, sum_map_add_distrib, sum_map_add_distrib,
    spike_sum (N + 1) b _ (by omega), spike_sum (N + 1) b _ (by omega),
    spike_sum (N + 1) vb _ (by omega)]
  have hc : (if vb = b then (1:ℕ) else 0) = (if b = vb then 1 else 0) := by
    by_cases h : b = vb
    · simp [h]
    · rw [if_neg (fun hh : vb = b => h hh.symm), if_neg h]
  rw [hc]

theorem term_appearances (N : ℕ) (t : Term) (hb : t.conblock ≤ N) (hv : t.varblock ≤ N) :
    ((List.range (N + 1)).map (fun n =>
      (if (t.conblock == n && t.varblock == n && t.is_eq) = true then 1 else 0) +
      (if (t.conblock == n && t.varblock == n && !t.is_eq) = true then 1 else 0) +
      (if (t.conblock == n && t.varblock == 0 && t.is_eq) = true then 1 else 0) +
      (if (t.conblock == n && t.varblock == 0 && !t.is_eq) = true then 1 else 0) +
      (if (t.conblock == N && t.varblock == n && t.is_eq) = true then 1 else 0) +
      (if (t.conblock == N && t.varblock == n && !t.is_eq) = true then 1 else 0))).sum =
    termBuckets N t := by
  have key := three_spikes N t.conblock t.varblock hb hv
  rcases Bool.eq_false_or_eq_true t.is_eq with he | he <;>
  · have hpt : ∀ n ∈ List.range (N + 1),
        ((if (t.conblock == n && t.varblock == n && t.is_eq) = true then (1:ℕ) else 0) +
         (if (t.conblock == n && t.varblock == n && !t.is_eq) = true then 1 else 0) +
         (if (t.conblock == n && t.varblock == 0 && t.is_eq) = true then 1 else 0) +
         (if (t.conblock == n && t.varblock == 0 && !t.is_eq) = true then 1 else 0) +
         (if (t.conblock == N && t.varblock == n && t.is_eq) = true then 1 else 0) +
         (if (t.conblock == N && t.varblock == n && !t.is_eq) = true then 1 else 0)) =
        ((if (t.conblock == n && t.varblock == n) = true then 1 else 0) +
         (if (t.conblock == n && t.varblock == 0) = true then 1 else 0) +
         (if (t.conblock == N && t.varblock == n) = true then 1 else 0)) := by
      intro n _
      simp [he]
    rw [List.map_congr_left hpt, key]
    rfl

theorem length_filter_cons (p : Term → Bool) (t : Term) (ts : List Term) :
    ((t :: ts).filter p).length = (if p t = true then 1 else 0) + (ts.filter p).length := by
  cases hp : p t <;> simp [List.filter_cons, hp] <;> omega

theorem totalTermRows_filters (N : ℕ) (ts : List Term) :
    totalTermRows N ts = ((List.range (N + 1)).map (fun n =>
      (ts.filter (fun t => t.conblock == n && t.varblock == n && t.is_eq)).length +
      (ts.filter (fun t => t.conblock == n && t.varblock == n && !t.is_eq)).length +
      (ts.filter (fun t => t.conblock == n && t.varblock == 0 && t.is_eq)).length +
      (ts.filter (fun t => t.conblock == n && t.varblock == 0 && !t.is_eq)).length +
      (ts.filter (fun t => t.conblock == N && t.varblock == n && t.is_eq)).length +
      (ts.filter (fun t => t.conblock == N && t.varblock == n && !t.is_eq)).length)).sum := by
  unfold totalTermRows
  apply congrArg List.sum
  apply List.map_congr_left
  intro n _
  rw [fileB_eq_filter, fileD_eq_filter, fileA_eq_filter, fileC_eq_filter, fileBL_eq_filter,
    fileDL_eq_filter]
  simp

/-- C2 counterexample: the claim that the total number of rows written across
all blocks' term files equals the total number of active terms, with double
counting only at the boundary `n` in 0 or `N`, fails: a term whose variable
block is neither `0` nor its constraint block and whose constraint block is
not `N` is written to no file at all, so the total row count (here 0) falls
short of the term count (1) although no boundary overlap is involved. -/
theorem totalTermRows_misses_uncoupled_term :
    totalTermRows 2 [⟨1, 2, true, 0, 1, 0⟩] = 0
    ∧ [(⟨1, 2, true, 0, 1, 0⟩ : Term)].length = 1
    ∧ (⟨1, 2, true, 0, 1, 0⟩ : Term).conblock ≠ (⟨1, 2, true, 0, 1, 0⟩ : Term).varblock
    ∧ (⟨1, 2, true, 0, 1, 0⟩ : Term).varblock ≠ 0
    ∧ (⟨1, 2, true, 0, 1, 0⟩ : Term).conblock ≠ 2 := by
  refine ⟨by decide, by decide, by decide, by decide, by decide⟩

/-- C2 (amended): for any assignment of blocks `0..N` to the terms, the total
number of rows written across all blocks' `{B,D}`, `{A,C}` and `{BL,DL}` term
files equals the sum over the active terms of the number of structural
predicates (diagonal `b = vb`, first-stage `vb = 0`, last-stage `b = N`) each
term satisfies: boundary-overlap terms are counted once per bucket family,
and a term satisfying no predicate is written nowhere. -/
theorem totalTermRows_eq_sum_buckets (N : ℕ) (ts : List Term)
    (h : ∀ t ∈ ts, t.conblock ≤ N ∧ t.varblock ≤ N) :
    totalTermRows N ts = (ts.map (termBuckets N)).sum := by
  rw [totalTermRows_filters]
  revert h
  induction ts with
  | nil =>
      intro h
      simp
  | cons t ts ih =>
      intro h
      have hhead := h t (List.mem_cons_self t ts)
      have htail : ∀ u ∈ ts, u.conblock ≤ N ∧ u.varblock ≤ N :=
        fun u hu => h u (List.mem_cons_of_mem t hu)
      have hpt : ∀ n ∈ List.range (N + 1),
          (((t :: ts).filter (fun u => u.conblock == n && u.varblock == n && u.is_eq)).length +
           ((t :: ts).filter (fun u => u.conblock == n && u.varblock == n && !u.is_eq)).length +
           ((t :: ts).filter (fun u => u.conblock == n && u.varblock == 0 && u.is_eq)).length +
           ((t :: ts).filter (fun u => u.conblock == n && u.varblock == 0 && !u.is_eq)).length +
           ((t :: ts).filter (fun u => u.conblock == N && u.varblock == n && u.is_eq)).length +
           ((t :: ts).filter (fun u => u.conblock == N && u.varblock == n && !u.is_eq)).length) =
          (((if (t.conblock == n && t.varblock == n && t.is_eq) = true then 1 else 0) +
            (if (t.conblock == n && t.varblock == n && !t.is_eq) = true then 1 else 0) +
            (if (t.conblock == n && t.varblock == 0 && t.is_eq) = true then 1 else 0) +
            (if (t.conblock == n && t.varblock == 0 && !t.is_eq) = true then 1 else 0) +
            (if (t.conblock == N && t.varblock == n && t.is_eq) = true then 1 else 0) +
            (if (t.conblock == N && t.varblock == n && !t.is_eq) = true then 1 else 0)) +
           ((ts.filter (fun u => u.conblock == n && u.varblock == n && u.is_eq)).length +
            (ts.filter (fun u => u.conblock == n && u.varblock == n && !u.is_eq)).length +
            (ts.filter (fun u => u.conblock == n && u.varblock == 0 && u.is_eq)).length +
            (ts.filter (fun u => u.conblock == n && u.varblock == 0 && !u.is_eq)).length +
            (ts.filter (fun u => u.conblock == N && u.varblock == n && u.is_eq)).length +
            (ts.filter (fun u => u.conblock == N && u.varblock == n && !u.is_eq)).length)) := by
        intro n _
        rw [length_filter_cons, length_filter_cons, length_filter_cons, length_filter_cons,
          length_filter_cons, length_filter_cons]
        ring
      rw [List.map_congr_left hpt, sum_map_add_distrib,
        term_appearances N t hhead.1 hhead.2, ih htail, List.map_cons, List.sum_cons]

/-- C2 witness: the amended count at two concrete terms of a two-block
problem, one diagonal first-stage term and one last-stage first-stage term,
each hitting two bucket families. -/
theorem totalTermRows_eq_sum_buckets_witness :
    totalTermRows 1 [⟨0, 0, true, 1, 1, 2⟩, ⟨1, 0, false, 2, 1, 3⟩] =
      ([(⟨0, 0, true, 1, 1, 2⟩ : Term), ⟨1, 0, false, 2, 1, 3⟩].map (termBuckets 1)).sum
    ∧ totalTermRows 1 [⟨0, 0, true, 1, 1, 2⟩, ⟨1, 0, false, 2, 1, 3⟩] = 4 :=
  ⟨totalTermRows_eq_sum_buckets 1 [⟨0, 0, true, 1, 1, 2⟩, ⟨1, 0, false, 2, 1, 3⟩]
    (by decide), by decide⟩

/-! ## Lemmas about the problem-file destination handling -/

theorem fs_max_len_bound (fs : FileSys) (kv : String × String) (h : kv ∈ fs) :
    kv.1.length ≤ fs_max_len fs := by
  induction fs with
  | nil => cases h
  | cons a fs ih =>
      simp only [fs_max_len, List.map_cons, List.foldr_cons]
      rw [List.mem_cons] at h
      rcases h with h | h
      · subst h; exact le_max_left _ _
      · exact le_trans (by simpa [fs_max_len] using ih h) (le_max_right _ _)

theorem namedTemporaryFile_length (fs : FileSys) (dir : String) :
    (namedTemporaryFile fs dir).length = dir.length + 16 + (fs_max_len fs + 1) + 3 := by
  have hmk : (String.mk (List.replicate (fs_max_len fs + 1) 'z')).length = fs_max_len fs + 1 := by
    show (List.replicate (fs_max_len fs + 1) 'z').length = _
    exact List.length_replicate _ _
  simp [namedTemporaryFile, String.length_append, hmk]
  rfl

theorem namedTemporaryFile_fresh (fs : FileSys) (dir : String) :
    fs_lookup fs (namedTemporaryFile fs dir) = none := by
  unfold fs_lookup
  cases hf : fs.find? (fun kv => kv.1 == namedTemporaryFile fs dir) with
  | none => rfl
  | some kv =>
      exfalso
      have hp := List.find?_some hf
      have hm := List.mem_of_find?_eq_some hf
      have heq : kv.1 = namedTemporaryFile fs dir := by
        exact eq_of_beq hp
      have hle := fs_max_len_bound fs kv hm
      have hlen := congrArg String.length heq
      rw [namedTemporaryFile_length] at hlen
      omega

theorem fs_lookup_write_file (fs : FileSys) (p s : String) :
    fs_lookup (write_file fs p s) p = some s := by
  simp [fs_lookup, write_file, List.find?]

/-- C9: the problem writer never appends.  A `some` destination is used as
given; if a file exists there it is removed first and the path is re-created
holding exactly the fresh render (deleting is not an error and the previous
content never survives).  A `none` destination allocates a fresh path inside
the configured working directory carrying the `linopy-problem-` stem and the
`.lp` suffix; the returned path is in every case the path where the rendered
problem file now lives. -/
theorem to_file_clean_slate (fs : FileSys) (m : LpModel) (fn : Option String) :
    (∀ f, fn = some f → (to_file fs m fn).2 = f)
    ∧ (fn = none →
        (∃ mid, (to_file fs m fn).2 = m.solver_dir ++ "/linopy-problem-" ++ mid ++ ".lp")
        ∧ fs_lookup fs (to_file fs m fn).2 = none)
    ∧ fs_lookup (to_file fs m fn).1 (to_file fs m fn).2 = some (lp_file_content m) := by
  refine ⟨?_, ?_, ?_⟩
  · intro f hf; subst hf; rfl
  · intro hf; subst hf
    exact ⟨⟨String.mk (List.replicate (fs_max_len fs + 1) 'z'), rfl⟩,
      namedTemporaryFile_fresh fs m.solver_dir⟩
  · cases fn with
    | none => exact fs_lookup_write_file _ _ _
    | some f => exact fs_lookup_write_file _ _ _

/-- C9 witness: writing over an existing file replaces its bytes, and the
temporary-path branch returns a fresh path. -/
theorem to_file_clean_slate_witness :
    (to_file [("f.lp", "old")] ⟨[], [], [], "d"⟩ (some "f.lp")).2 = "f.lp"
    ∧ fs_lookup (to_file [("f.lp", "old")] ⟨[], [], [], "d"⟩ (some "f.lp")).1 "f.lp" =
        some (lp_file_content ⟨[], [], [], "d"⟩)
    ∧ fs_lookup [] (to_file ([] : FileSys) ⟨[], [], [], "d"⟩ none).2 = none := by
  refine ⟨?_, ?_, ?_⟩
  · exact (to_file_clean_slate [("f.lp", "old")] ⟨[], [], [], "d"⟩ (some "f.lp")).1 "f.lp" rfl
  · exact (to_file_clean_slate [("f.lp", "old")] ⟨[], [], [], "d"⟩ (some "f.lp")).2.2
  · exact ((to_file_clean_slate ([] : FileSys) ⟨[], [], [], "d"⟩ none).2.1 rfl).2

/-! ## Lemmas about the objective scatter -/

theorem np_setitem_props : ∀ (is : List ℤ) (ws : List ℚ) (base : List ℤ),
    is.length = ws.length → (∀ i ∈ is, 0 ≤ i ∧ i < (base.length : ℤ)) → is.Nodup →
    ∃ r, np_setitem base is ws = some r ∧ r.length = base.length ∧
      (∀ j : ℕ, (∀ i ∈ is, i.toNat ≠ j) → r[j]? = base[j]?) ∧
      (∀ (k : ℕ) (i2 : ℤ) (w2 : ℚ), is[k]? = some i2 → ws[k]? = some w2 →
        r[i2.toNat]? = some (ratTrunc w2)) := by
  intro is
  induction is with
  | nil =>
      intro ws base hlen _ _
      have hw : ws = [] := List.length_eq_zero.mp hlen.symm
      subst hw
      exact ⟨base, rfl, rfl, fun j _ => rfl, fun k i2 w2 hk => by simp at hk⟩
  | cons i is ih =>
      intro ws base hlen hb hnd
      cases ws with
      | nil => simp at hlen
      | cons w ws =>
          obtain ⟨hi0, hilt⟩ := hb i (List.mem_cons_self i is)
          have hstep : np_setitem base (i :: is) (w :: ws) =
              np_setitem (base.set i.toNat (ratTrunc w)) is ws := by
            simp only [np_setitem]
            rw [if_neg (not_lt.mpr hi0), if_pos ⟨hi0, hilt⟩]
          have hb2 : ∀ i2 ∈ is, 0 ≤ i2 ∧ i2 < ((base.set i.toNat (ratTrunc w)).length : ℤ) := by
            intro i2 h2
            rw [List.length_set]
            exact hb i2 (List.mem_cons_of_mem i h2)
          have hlen2 : is.length = ws.length := by
            simp only [List.length_cons] at hlen
            omega
          obtain ⟨r, hr, hrl, hru, hrp⟩ :=
            ih ws (base.set i.toNat (ratTrunc w)) hlen2 hb2 (List.Nodup.of_cons hnd)
          have hinot : i ∉ is := (List.nodup_cons.mp hnd).1
          refine ⟨r, hstep.trans hr, by rw [hrl, List.length_set], ?_, ?_⟩
          · intro j hj
            rw [hru j (fun i2 h2 => hj i2 (List.mem_cons_of_mem i h2))]
            exact List.getElem?_set_ne (by
              have := hj i (List.mem_cons_self i is)
              omega)
          · intro k i2 w2 hik hwk
            cases k with
            | zero =>
                simp only [List.getElem?_cons_zero, Option.some.injEq] at hik hwk
                subst hik; subst hwk
                have hju : ∀ i3 ∈ is, i3.toNat ≠ i.toNat := by
                  intro i3 h3
                  obtain ⟨hi30, _⟩ := hb i3 (List.mem_cons_of_mem i h3)
                  have hne2 : i3 ≠ i := fun he => hinot (he ▸ h3)
                  omega
                rw [hru i.toNat hju]
                exact List.getElem?_set_eq_of_lt _ (by omega)
            | succ k =>
                simp only [List.getElem?_cons_succ] at hik hwk
                exact hrp k i2 w2 hik hwk

theorem np_setitem_append : ∀ (is : List ℤ) (ws : List ℚ) (is2 : List ℤ) (ws2 : List ℚ)
    (base : List ℤ), is.length = ws.length →
    np_setitem base (is ++ is2) (ws ++ ws2) =
      (np_setitem base is ws).bind (fun r => np_setitem r is2 ws2) := by
  intro is
  induction is with
  | nil =>
      intro ws is2 ws2 base hlen
      have hw : ws = [] := List.length_eq_zero.mp hlen.symm
      subst hw
      rfl
  | cons i is ih =>
      intro ws is2 ws2 base hlen
      cases ws with
      | nil => simp at hlen
      | cons w ws =>
          simp only [List.cons_append, np_setitem]
          by_cases hcond : 0 ≤ (if i < 0 then i + (base.length : ℤ) else i) ∧
              (if i < 0 then i + (base.length : ℤ) else i) < (base.length : ℤ)
          · have hlen2 : is.length = ws.length := by
              simp only [List.length_cons] at hlen
              omega
            rw [if_pos hcond, if_pos hcond]
            simp only [List.append_eq]
            rw [ih ws is2 ws2 _ hlen2]
          · rw [if_neg hcond, if_neg hcond]
            rfl

/-- C10: the objective scatter writes through the raw variable-reference
array without filtering sentinel entries.  Under the precondition that every
reference lies in `[0, number of active variables)` the fancy assignment is
in bounds and stores (the integer truncation of) each coefficient at its
variable's label position, leaving zero elsewhere; a trailing absent term
with `var = -1` is not skipped — its coefficient lands in the last variable's
slot of the dense array through numpy's negative indexing. -/
theorem objective_scatter_raw_indexing (blocks : List ℤ) (is : List ℤ) (ws : List ℚ) (w : ℚ)
    (hlen : is.length = ws.length)
    (hin : ∀ i ∈ is, 0 ≤ i ∧ i < (blocks.length : ℤ))
    (hnd : is.Nodup) (hne : blocks ≠ []) :
    (∃ r, np_setitem (zeros_like blocks) is ws = some r ∧ r.length = blocks.length ∧
        (∀ (k : ℕ) (i : ℤ) (w2 : ℚ), is[k]? = some i → ws[k]? = some w2 →
          r[i.toNat]? = some (ratTrunc w2)) ∧
        (∀ j : ℕ, j < blocks.length → (∀ i ∈ is, i.toNat ≠ j) → r[j]? = some 0))
    ∧ (∃ r2, np_setitem (zeros_like blocks) (is ++ [-1]) (ws ++ [w]) = some r2 ∧
        r2[blocks.length - 1]? = some (ratTrunc w)) := by
  have hzl : (zeros_like blocks).length = blocks.length := List.length_map _ _
  have hin2 : ∀ i ∈ is, 0 ≤ i ∧ i < ((zeros_like blocks).length : ℤ) := by
    intro i hi
    rw [hzl]
    exact hin i hi
  obtain ⟨r, hr, hrl, hru, hrp⟩ := np_setitem_props is ws (zeros_like blocks) hlen hin2 hnd
  have hpos : 0 < blocks.length := List.length_pos.mpr hne
  constructor
  · refine ⟨r, hr, by rw [hrl, hzl], hrp, ?_⟩
    intro j hjlt hj
    rw [hru j hj]
    rw [List.getElem?_eq_getElem (by rw [hzl]; exact hjlt)]
    simp [zeros_like]
  · have happ := np_setitem_append is ws [-1] [w] (zeros_like blocks) hlen
    rw [hr] at happ
    have hrlen : 0 < r.length := by rw [hrl, hzl]; exact hpos
    have hstep : np_setitem r [-1] [w] =
        some (r.set ((-1 + (r.length : ℤ)).toNat) (ratTrunc w)) := by
      simp only [np_setitem]
      rw [if_pos (by norm_num : (-1 : ℤ) < 0)]
      rw [if_pos (⟨by omega, by omega⟩ :
        0 ≤ (-1 + (r.length : ℤ)) ∧ -1 + (r.length : ℤ) < (r.length : ℤ))]
    have hfull : np_setitem (zeros_like blocks) (is ++ [-1]) (ws ++ [w]) =
        some (r.set ((-1 + (r.length : ℤ)).toNat) (ratTrunc w)) := by
      rw [happ]
      exact hstep
    refine ⟨_, hfull, ?_⟩
    have hidx : ((-1 + (r.length : ℤ)).toNat) = blocks.length - 1 := by
      rw [hrl, hzl]; omega
    rw [hidx]
    exact List.getElem?_set_eq_of_lt _ (by rw [hrl, hzl]; omega)

/-- C10 witness: two active variables, one objective term on variable 0 with
coefficient 3/2 (stored truncated to 1), and the same scatter extended by a
trailing `var = -1` term whose coefficient lands in the last slot. -/
theorem objective_scatter_raw_indexing_witness :
    (∃ r, np_setitem (zeros_like [5, 7]) [0] [ratThreeHalves] = some r ∧
      r[(0 : ℤ).toNat]? = some (ratTrunc ratThreeHalves) ∧ r.length = 2)
    ∧ (∃ r2, np_setitem (zeros_like [5, 7]) ([0] ++ [-1]) ([ratThreeHalves] ++ [ratThreeHalves])
        = some r2 ∧ r2[1]? = some (ratTrunc ratThreeHalves)) := by
  have h := objective_scatter_raw_indexing [5, 7] [0] [ratThreeHalves] ratThreeHalves
    (by decide) (by decide) (by decide) (by decide)
  obtain ⟨⟨r, hr, hrl, hplace, _⟩, ⟨r2, hr2, hr2get⟩⟩ := h
  exact ⟨⟨r, hr, hplace 0 0 ratThreeHalves rfl rfl, hrl⟩, ⟨r2, hr2, hr2get⟩⟩

/-- C4 (code bug): the dense objective array is created by
`np.zeros_like(blocks)` (io.py line 172) and therefore inherits the integer
element type of the per-variable block array, so the scattered coefficients
are truncated toward zero when stored: for one variable of block 0 carrying
objective coefficient 3/2, the written `block0/c` holds the integer 1, not
the 8-byte-float value 3/2 the claim requires. -/
theorem objective_c_files_truncates :
    objective_c_files [0] [0] [ratThreeHalves] 0 = some [[1]]
    ∧ ratTrunc ratThreeHalves = 1
    ∧ ratThreeHalves ≠ (1 : ℚ) :=
  ⟨by decide, by decide, by decide⟩

/-! ## Lemmas about the snapshot codec key discipline -/

theorem isPrefixOf_self_app (u w : List Char) : u.isPrefixOf (u ++ w) = true := by
  induction u with
  | nil => simp [List.isPrefixOf]
  | cons a u ih => simp [List.isPrefixOf, ih]

theorem key_capture : ∀ (u v f : List Char), '-' ∉ u → '-' ∉ v →
    (((u ++ ['-']).isPrefixOf (v ++ '-' :: f)) = true ↔ u = v) := by
  intro u
  induction u with
  | nil =>
      intro v f _ hv
      cases v with
      | nil => simp [List.isPrefixOf]
      | cons c v2 =>
          have hc : c ≠ '-' := fun he => hv (he ▸ List.mem_cons_self c v2)
          simp only [List.nil_append, List.cons_append, List.isPrefixOf, Bool.and_eq_true,
            beq_iff_eq]
          constructor
          · rintro ⟨h1, -⟩
            exact absurd h1.symm hc
          · intro h
            simp at h
  | cons a u2 ihu =>
      intro v f hu hv
      cases v with
      | nil =>
          have ha : a ≠ '-' := fun he => hu (he ▸ List.mem_cons_self a u2)
          simp only [List.cons_append, List.nil_append, List.isPrefixOf, Bool.and_eq_true,
            beq_iff_eq]
          constructor
          · rintro ⟨h1, -⟩
            exact absurd h1 ha
          · intro h
            simp at h
      | cons c v2 =>
          have hu2 : '-' ∉ u2 := fun he => hu (List.mem_cons_of_mem a he)
          have hv2 : '-' ∉ v2 := fun he => hv (List.mem_cons_of_mem c he)
          simp only [List.cons_append, List.isPrefixOf, Bool.and_eq_true, beq_iff_eq,
            List.append_eq]
          rw [ihu v2 f hu2 hv2]
          simp

theorem drop_key_stem (u f : List Char) : (u ++ '-' :: f).drop (u.length + 1) = f := by
  have hsplit : u ++ '-' :: f = (u ++ ['-']) ++ f := by simp
  have hlen : (u ++ ['-']).length = u.length + 1 := by simp
  rw [hsplit, ← hlen, List.drop_left]

theorem dash_notin_app {x y : List Char} (h1 : '-' ∉ x) (h2 : '-' ∉ y) : '-' ∉ x ++ y := by
  intro h
  rcases List.mem_append.mp h with h | h
  · exact h1 h
  · exact h2 h

theorem gar_in_block_eq {α : Type} (pre a : List Char) (ds : DSet α) :
    get_and_rename_in (get_and_rename_out pre a ds) pre a = ds := by
  induction ds with
  | nil => rfl
  | cons fv ds ih =>
      simp only [get_and_rename_out, get_and_rename_in, List.map_cons, List.filter_cons] at ih ⊢
      rw [if_pos (by
        show ((pre ++ a) ++ ['-']).isPrefixOf ((pre ++ a) ++ '-' :: fv.1) = true
        have hkey : (pre ++ a) ++ '-' :: fv.1 = ((pre ++ a) ++ ['-']) ++ fv.1 := by simp
        rw [hkey]
        exact isPrefixOf_self_app _ _)]
      simp only [List.map_cons]
      rw [drop_key_stem (pre ++ a) fv.1, ih]

theorem gar_in_block_ne {α : Type} (pre a pre2 a2 : List Char) (ds : DSet α)
    (hne : pre2 ++ a2 ≠ pre ++ a) (h1 : '-' ∉ pre ++ a) (h2 : '-' ∉ pre2 ++ a2) :
    get_and_rename_in (get_and_rename_out pre2 a2 ds) pre a = [] := by
  induction ds with
  | nil => rfl
  | cons fv ds ih =>
      simp only [get_and_rename_out, get_and_rename_in, List.map_cons, List.filter_cons] at ih ⊢
      rw [if_neg (by
        intro hp
        exact hne ((key_capture (pre ++ a) (pre2 ++ a2) fv.1 h1 h2).mp hp).symm)]
      exact ih

theorem gar_in_append {α : Type} (d1 d2 : DSet α) (pre a : List Char) :
    get_and_rename_in (d1 ++ d2) pre a =
      get_and_rename_in d1 pre a ++ get_and_rename_in d2 pre a := by
  simp [get_and_rename_in, List.filter_append]

theorem gar_in_saveSection_none {α : Type} (pre2 pre a : List Char)
    (hu : '-' ∉ pre ++ a) (hp2 : '-' ∉ pre2) :
    ∀ sec : List (List Char × DSet α), (∀ p ∈ sec, '-' ∉ p.1) →
      (∀ p ∈ sec, pre2 ++ p.1 ≠ pre ++ a) →
      get_and_rename_in (saveSection pre2 sec) pre a = [] := by
  intro sec
  induction sec with
  | nil =>
      intro _ _
      rfl
  | cons ads sec ih =>
      intro hdall hnm
      have hsave : saveSection pre2 (ads :: sec) =
          get_and_rename_out pre2 ads.1 ads.2 ++ saveSection pre2 sec := rfl
      rw [hsave, gar_in_append,
        gar_in_block_ne pre a pre2 ads.1 ads.2 (hnm ads (List.mem_cons_self ads sec)) hu
          (dash_notin_app hp2 (hdall ads (List.mem_cons_self ads sec))),
        ih (fun p hp => hdall p (List.mem_cons_of_mem ads hp))
          (fun p hp => hnm p (List.mem_cons_of_mem ads hp))]
      rfl

theorem gar_in_saveSection_same {α : Type} (pre a : List Char) (ds : DSet α)
    (hpre : '-' ∉ pre) (hda : '-' ∉ a) :
    ∀ sec : List (List Char × DSet α), (∀ p ∈ sec, '-' ∉ p.1) →
      (sec.map Prod.fst).Nodup → (a, ds) ∈ sec →
      get_and_rename_in (saveSection pre sec) pre a = ds := by
  intro sec
  induction sec with
  | nil =>
      intro _ _ h
      cases h
  | cons ads sec ih =>
      intro hdall hnd hmem
      have hsave : saveSection pre (ads :: sec) =
          get_and_rename_out pre ads.1 ads.2 ++ saveSection pre sec := rfl
      rw [hsave, gar_in_append]
      rw [List.map_cons] at hnd
      have hkeys := List.nodup_cons.mp hnd
      rcases List.mem_cons.mp hmem with h | h
      · rw [← h]
        rw [gar_in_block_eq]
        have hrest : get_and_rename_in (saveSection pre sec) pre a = [] := by
          apply gar_in_saveSection_none pre pre a (dash_notin_app hpre hda) hpre sec
            (fun p hp => hdall p (List.mem_cons_of_mem ads hp))
          intro p hp hc
          have hp1 : p.1 = a := List.append_cancel_left hc
          have : a ∈ sec.map Prod.fst := List.mem_map.mpr ⟨p, hp, hp1⟩
          have hads1 : ads.1 = a := by rw [← h]
          exact hkeys.1 (hads1 ▸ this)
        rw [hrest, List.append_nil]
      · have hain : a ∈ sec.map Prod.fst := List.mem_map.mpr ⟨(a, ds), h, rfl⟩
        have hne2 : ads.1 ≠ a := fun he => hkeys.1 (he ▸ hain)
        rw [gar_in_block_ne pre a pre ads.1 ads.2
          (fun hc => hne2 (List.append_cancel_left hc)) (dash_notin_app hpre hda)
          (dash_notin_app hpre (hdall ads (List.mem_cons_self ads sec))),
          List.nil_append]
        exact ih (fun p hp => hdall p (List.mem_cons_of_mem ads hp)) hkeys.2 h

theorem option_mapM_congr {β γ : Type} : ∀ (l : List β) (f g : β → Option γ),
    (∀ x ∈ l, f x = g x) → l.mapM f = l.mapM g := by
  intro l
  induction l with
  | nil =>
      intro f g _
      rfl
  | cons a l ih =>
      intro f g h
      simp only [List.mapM_cons]
      rw [h a (List.mem_cons_self a l), ih f g (fun x hx => h x (List.mem_cons_of_mem a hx))]

theorem readScalars_self {σ : Type} : ∀ l : List (List Char × σ),
    (l.map Prod.fst).Nodup → readScalars l (l.map Prod.fst) = some l := by
  intro l
  induction l with
  | nil =>
      intro _
      rfl
  | cons kv l ih =>
      intro hnd
      rw [List.map_cons] at hnd
      have hkeys := List.nodup_cons.mp hnd
      simp only [readScalars, List.map_cons, List.mapM_cons]
      have hhead : (((kv :: l).find? (fun p => p.1 == kv.1)).map (fun p => (kv.1, p.2))) =
          some kv := by
        rw [List.find?_cons_of_pos _ (by simp)]
        simp
      have htail : (l.map Prod.fst).mapM (fun k =>
          (((kv :: l).find? (fun p => p.1 == k)).map (fun p => (k, p.2)))) =
          (l.map Prod.fst).mapM (fun k =>
          ((l.find? (fun p => p.1 == k)).map (fun p => (k, p.2)))) := by
        apply option_mapM_congr
        intro k hk
        have hne2 : kv.1 ≠ k := fun he => hkeys.1 (he ▸ hk)
        have hbeq : (kv.1 == k) = false := beq_eq_false_iff_ne.mpr hne2
        rw [List.find?_cons_of_neg _ (by simp [hbeq])]
      rw [hhead, htail]
      have := ih hkeys.2
      simp only [readScalars] at this
      rw [this]
      rfl

theorem map_fst_pair {γ δ : Type} (F : γ → δ) :
    ∀ l : List (γ × δ), (∀ p ∈ l, F p.1 = p.2) → l.map (fun p => (p.1, F p.1)) = l := by
  intro l
  induction l with
  | nil =>
      intro _
      rfl
  | cons p l ih =>
      intro h
      simp only [List.map_cons]
      rw [h p (List.mem_cons_self p l), ih (fun q hq => h q (List.mem_cons_of_mem p hq))]

theorem preCons_app_ne_preVars_app (x y : List Char) : preCons ++ x ≠ preVars ++ y := by
  intro h
  have h1 : (preCons ++ x).head? = some 'c' := rfl
  rw [h] at h1
  have h2 : (preVars ++ y).head? = some 'v' := rfl
  rw [h1] at h2
  simp at h2

theorem preVars_dash : '-' ∉ preVars := by decide

theorem preCons_dash : '-' ∉ preCons := by decide

/-- C3: the snapshot round-trip — reading a written snapshot back with the
model's section schemas restores every field of every section (variables,
constraints, model-level datasets including the objective) and every scalar
attribute, losslessly.  The hypotheses record the schema discipline of the
model class: the schema lists are exactly the sections' attribute names,
attribute names are unique per section and contain no `-`, and no model-level
attribute name starts with the `variables_` or `constraints_` stem. -/
theorem netcdf_roundtrip {α σ : Type} (m : NCModel α σ)
    (schemaV schemaC schemaO schemaS : List (List Char))
    (hV : schemaV = m.varSection.map Prod.fst)
    (hC : schemaC = m.conSection.map Prod.fst)
    (hO : schemaO = m.otherSection.map Prod.fst)
    (hS : schemaS = m.scalars.map Prod.fst)
    (hVnd : schemaV.Nodup) (hCnd : schemaC.Nodup) (hOnd : schemaO.Nodup)
    (hSnd : schemaS.Nodup)
    (hVdash : ∀ a ∈ schemaV, '-' ∉ a) (hCdash : ∀ a ∈ schemaC, '-' ∉ a)
    (hOdash : ∀ a ∈ schemaO, '-' ∉ a)
    (hOsafe : ∀ a ∈ schemaO, preVars.isPrefixOf a = false ∧ preCons.isPrefixOf a = false) :
    read_netcdf (to_netcdf m).1 (to_netcdf m).2 schemaV schemaC schemaO schemaS = some m := by
  subst hV; subst hC; subst hO; subst hS
  unfold read_netcdf to_netcdf
  rw [readScalars_self m.scalars hSnd]
  simp only [Option.map_some']
  refine congrArg some ?_
  have hVdashall : ∀ p ∈ m.varSection, '-' ∉ p.1 :=
    fun p hp => hVdash p.1 (List.mem_map.mpr ⟨p, hp, rfl⟩)
  have hCdashall : ∀ p ∈ m.conSection, '-' ∉ p.1 :=
    fun p hp => hCdash p.1 (List.mem_map.mpr ⟨p, hp, rfl⟩)
  have hOdashall : ∀ p ∈ m.otherSection, '-' ∉ p.1 :=
    fun p hp => hOdash p.1 (List.mem_map.mpr ⟨p, hp, rfl⟩)
  have hOnil : ('-' : Char) ∉ ([] : List Char) := List.not_mem_nil _
  have hVfield : ∀ p ∈ m.varSection,
      get_and_rename_in (saveSection preVars m.varSection ++ saveSection preCons m.conSection
        ++ saveSection [] m.otherSection) preVars p.1 = p.2 := by
    intro p hp
    have hpa : '-' ∉ p.1 := hVdashall p hp
    have hu : '-' ∉ preVars ++ p.1 := dash_notin_app preVars_dash hpa
    have hnmO : ∀ q ∈ m.otherSection, [] ++ q.1 ≠ preVars ++ p.1 := by
      intro q hq hc
      rw [List.nil_append] at hc
      have hfalse := (hOsafe q.1 (List.mem_map.mpr ⟨q, hq, rfl⟩)).1
      rw [hc, isPrefixOf_self_app] at hfalse
      exact absurd hfalse (by decide)
    rw [gar_in_append, gar_in_append,
      gar_in_saveSection_same preVars p.1 p.2 preVars_dash hpa m.varSection hVdashall hVnd
        (by simpa using hp),
      gar_in_saveSection_none preCons preVars p.1 hu preCons_dash m.conSection hCdashall
        (fun q _ => preCons_app_ne_preVars_app q.1 p.1),
      gar_in_saveSection_none [] preVars p.1 hu hOnil m.otherSection hOdashall hnmO]
    simp
  have hCfield : ∀ p ∈ m.conSection,
      get_and_rename_in (saveSection preVars m.varSection ++ saveSection preCons m.conSection
        ++ saveSection [] m.otherSection) preCons p.1 = p.2 := by
    intro p hp
    have hpa : '-' ∉ p.1 := hCdashall p hp
    have hu : '-' ∉ preCons ++ p.1 := dash_notin_app preCons_dash hpa
    have hnmO : ∀ q ∈ m.otherSection, [] ++ q.1 ≠ preCons ++ p.1 := by
      intro q hq hc
      rw [List.nil_append] at hc
      have hfalse := (hOsafe q.1 (List.mem_map.mpr ⟨q, hq, rfl⟩)).2
      rw [hc, isPrefixOf_self_app] at hfalse
      exact absurd hfalse (by decide)
    rw [gar_in_append, gar_in_append,
      gar_in_saveSection_none preVars preCons p.1 hu preVars_dash m.varSection hVdashall
        (fun q _ hc => preCons_app_ne_preVars_app p.1 q.1 hc.symm),
      gar_in_saveSection_same preCons p.1 p.2 preCons_dash hpa m.conSection hCdashall hCnd
        (by simpa using hp),
      gar_in_saveSection_none [] preCons p.1 hu hOnil m.otherSection hOdashall hnmO]
    simp
  have hOfield : ∀ p ∈ m.otherSection,
      get_and_rename_in (saveSection preVars m.varSection ++ saveSection preCons m.conSection
        ++ saveSection [] m.otherSection) [] p.1 = p.2 := by
    intro p hp
    have hpa : '-' ∉ p.1 := hOdashall p hp
    have hu : '-' ∉ ([] : List Char) ++ p.1 := by simpa using hpa
    have hnmV : ∀ q ∈ m.varSection, preVars ++ q.1 ≠ [] ++ p.1 := by
      intro q hq hc
      rw [List.nil_append] at hc
      have hfalse := (hOsafe p.1 (List.mem_map.mpr ⟨p, hp, rfl⟩)).1
      rw [← hc, isPrefixOf_self_app] at hfalse
      exact absurd hfalse (by decide)
    have hnmC : ∀ q ∈ m.conSection, preCons ++ q.1 ≠ [] ++ p.1 := by
      intro q hq hc
      rw [List.nil_append] at hc
      have hfalse := (hOsafe p.1 (List.mem_map.mpr ⟨p, hp, rfl⟩)).2
      rw [← hc, isPrefixOf_self_app] at hfalse
      exact absurd hfalse (by decide)
    rw [gar_in_append, gar_in_append,
      gar_in_saveSection_none preVars [] p.1 hu preVars_dash m.varSection hVdashall hnmV,
      gar_in_saveSection_none preCons [] p.1 hu preCons_dash m.conSection hCdashall hnmC,
      gar_in_saveSection_same [] p.1 p.2 hOnil hpa m.otherSection hOdashall hOnd
        (by simpa using hp)]
    simp
  cases m with
  | mk mv mc mo ms =>
      simp only [NCModel.mk.injEq]
      refine ⟨?_, ?_, ?_, trivial⟩
      · rw [List.map_map]
        exact map_fst_pair _ mv hVfield
      · rw [List.map_map]
        exact map_fst_pair _ mc hCfield
      · rw [List.map_map]
        exact map_fst_pair _ mo hOfield

/-- C3 witness: a one-attribute-per-section model with one scalar attribute
round-trips to itself. -/
theorem netcdf_roundtrip_witness :
    read_netcdf
      (to_netcdf (⟨[(['l'], [(['x'], (1 : ℤ))])], [(['r'], [(['y'], 2)])],
        [(['o'], [(['z'], 3)])], [(['s'], (4 : ℤ))]⟩ : NCModel ℤ ℤ)).1
      (to_netcdf (⟨[(['l'], [(['x'], (1 : ℤ))])], [(['r'], [(['y'], 2)])],
        [(['o'], [(['z'], 3)])], [(['s'], (4 : ℤ))]⟩ : NCModel ℤ ℤ)).2
      [['l']] [['r']] [['o']] [['s']] =
    some (⟨[(['l'], [(['x'], (1 : ℤ))])], [(['r'], [(['y'], 2)])],
        [(['o'], [(['z'], 3)])], [(['s'], (4 : ℤ))]⟩ : NCModel ℤ ℤ) :=
  netcdf_roundtrip _ [['l']] [['r']] [['o']] [['s']] rfl rfl rfl rfl
    (by decide) (by decide) (by decide) (by decide)
    (by decide) (by decide) (by decide) (by decide)

end Linopy

